import Mathlib

/-!
Verification of the bridge contract of the pyqtwebview repository.

The development shallowly embeds the two bridge implementations:

* `WebInterface` (src/web_interface.py): the in-memory key/value map variant
  (`store_data`, `get_data`, `clear_data`), the filesystem-bounded
  `read_file`, and the whitelist-restricted `calculate`.
* `PythonBridge` (src/advanced.py): the SQLite-backed record store
  (`save_data`, `get_all_data`, `delete_data`, `log_action`) together with
  `AdvancedWebView.clear_app_data`.

JSON payloads returned across the bridge are modelled by the `JValue` type;
wall-clock timestamps are abstracted to a natural-number clock that ticks at
every timestamp-producing operation; the filesystem and `os.path.abspath`
are parameters of `read_file`.
-/

/-- A JSON value, as produced by `json.dumps` on the Python side.  Numbers are
modelled as rationals (covering both Python `int` and the exactly-representable
`float` results that appear in the claims). -/
inductive JValue where
  | null
  | bool (b : Bool)
  | num (q : ℚ)
  | str (s : String)
  | arr (elems : List JValue)
  | obj (fields : List (String × JValue))

/-- Field lookup in a JSON object; `none` when the value is not an object or
the field is absent. -/
def JValue.getField : JValue → String → Option JValue
  | .obj fields, k => fields.lookup k
  | _, _ => none

/-- The list of elements of a JSON array (`[]` for non-arrays). -/
def JValue.arrElems : JValue → List JValue
  | .arr elems => elems
  | _ => []

/-- Character-wise prefix test on strings: the semantics of Python
`str.startswith`. -/
def charsStartWith : List Char → List Char → Bool
  | _, [] => true
  | [], _ :: _ => false
  | a :: as, b :: bs => a = b && charsStartWith as bs

/-- Python `s.startswith(p)`. -/
def strStartsWith (s p : String) : Bool :=
  charsStartWith s.toList p.toList

/-- Abstract rendering of `datetime.now().isoformat()` from the tick of the
model clock. -/
def isoTimestamp (clock : Nat) : String := toString clock

/-- Abstract rendering of the SQLite `CURRENT_TIMESTAMP` default from the tick
of the model clock. -/
def sqliteTimestamp (clock : Nat) : String := toString clock

namespace WebInterface

/-- State of the `WebInterface` map-based bridge: the `self.user_data` dict
(an insertion-ordered unique-key association list, as a Python dict is) and
the abstract clock feeding `datetime.now()`. -/
structure State where
  user_data : List (String × JValue)
  clock : Nat

/-- The state right after `WebInterface.__init__`: `self.user_data = {}`. -/
def init : State := ⟨[], 0⟩

/-- Python dict assignment `d[key] = entry`: replace the binding in place if
the key is present, otherwise append it. -/
def setKey (key : String) (entry : JValue) : List (String × JValue) → List (String × JValue)
  | [] => [(key, entry)]
  | (k, e) :: rest =>
      if k = key then (key, entry) :: rest else (k, e) :: setKey key entry rest

/-- Number of bindings a key has in the association list backing the map
(`1` at most for a genuine dict, which the invariants below establish). -/
def countKey (k : String) (l : List (String × JValue)) : Nat :=
  l.countP (fun p => p.1 == k)

/-- `type(value).__name__` for the second slot argument: the slot signature
`@pyqtSlot(str, str)` coerces `value` to `str` before the method body runs,
so the recorded name is always `"str"`. -/
def str_type_name (value : String) : String := "str"

/-- `WebInterface.store_data(key, value)`: writes the three-field entry dict
`{'value': value, 'timestamp': datetime.now().isoformat(), 'type':
type(value).__name__}` into `self.user_data[key]`.  The `data_updated` signal
emission and console logging have no effect on the bridge state. -/
def store_data (key value : String) (st : State) : State :=
  { user_data :=
      setKey key
        (.obj [("value", .str value),
               ("timestamp", .str (isoTimestamp st.clock)),
               ("type", .str (str_type_name value))])
        st.user_data,
    clock := st.clock + 1 }

/-- `WebInterface.get_data(key)`: returns the stored entry as JSON, or the
error object for an absent key. -/
def get_data (key : String) (st : State) : JValue :=
  match st.user_data.lookup key with
  | some data => data
  | none => .obj [("error", .str ("数据键 " ++ key ++ " 不存在"))]

/-- `WebInterface.clear_data()`: `self.user_data.clear()`. -/
def clear_data (st : State) : State :=
  { st with user_data := [] }

/-- The state-mutating operations of the map-based bridge. -/
inductive MOp where
  | store (key value : String)
  | clear
deriving DecidableEq

/-- One bridge call. -/
def mstep (st : State) : MOp → State
  | .store k v => store_data k v st
  | .clear => clear_data st

/-- A sequence of bridge calls. -/
def mrun (st : State) : List MOp → State
  | [] => st
  | op :: ops => mrun (mstep st op) ops

/-- Outcome of opening and reading a file at a resolved absolute path:
absent (`os.path.exists` false), present but the `open`/`read` raises
(permissions, decode errors, ...), or readable with the given text content. -/
inductive FileOutcome where
  | missing
  | readError (msg : String)
  | ok (content : String)

/-- `WebInterface.read_file(file_path)`.  `app_dir` is
`os.path.dirname(os.path.abspath(__file__))`, the fixed root directory (no
trailing separator); `abspath` models `os.path.abspath`, i.e. resolution of
the argument against the process working directory; `fs` models the
filesystem at the resolved path.  The body mirrors the source: the
`startswith` security check, then the existence check, then the read; the
`except` branch corresponds to `FileOutcome.readError`. -/
def read_file (app_dir : String) (abspath : String → String)
    (fs : String → FileOutcome) (file_path : String) : JValue :=
  let abs_path := abspath file_path
  if !(strStartsWith abs_path app_dir) then
    .obj [("error", .str "安全限制：只能访问应用程序目录下的文件")]
  else
    match fs abs_path with
    | .missing => .obj [("error", .str ("文件不存在: " ++ file_path))]
    | .readError msg =>
        .obj [("success", .bool false), ("error", .str msg),
              ("file_path", .str file_path)]
    | .ok content =>
        .obj [("success", .bool true), ("file_path", .str file_path),
              ("content", .str content),
              ("size", .num (content.length : ℚ))]

/-- Spec-side reading of "the resolved absolute path lies inside the fixed
root directory": the path is the root itself or strictly below it (root
followed by a path separator).  This states the claims; the code's own check
is the bare string-prefix test `strStartsWith`. -/
def underRoot (root p : String) : Bool :=
  p = root || strStartsWith p (root ++ "/")

/-- The expression fragment accepted by `WebInterface.calculate`: number
literals, bare name references, unary minus, the four arithmetic operators,
calls of arity one and two (the whitelisted callables are used with one
argument — or two for `min`/`max` — in every documented example), and the
short-circuiting constructs `a and b`, `a or b` and the conditional
expression `body if test else orelse`, whose non-selected operands are never
evaluated.  Constructs outside the fragment (string literals, attribute
access such as `(1).bit_length()`, lambdas, comprehensions) do not resolve
any further names through `allowed_names`: an attribute name is looked up on
the object, never in the whitelist environment, so only the names embedded
here are "symbols" in the whitelist sense. -/
inductive PExpr where
  | num (q : ℚ)
  | name (s : String)
  | neg (a : PExpr)
  | add (a b : PExpr)
  | sub (a b : PExpr)
  | mul (a b : PExpr)
  | div (a b : PExpr)
  | call1 (f : String) (a : PExpr)
  | call2 (f : String) (a b : PExpr)
  | and (a b : PExpr)
  | or (a b : PExpr)
  | ifExp (test body orelse : PExpr)

/-- The callables placed into `allowed_names` by `calculate`. -/
inductive PBuiltin where
  | abs | round | min | max | sum | len | sin | cos | tan | sqrt
deriving DecidableEq

/-- A binding in the evaluation environment: a numeric constant (`pi`, `e`)
or a whitelisted callable. -/
inductive PName where
  | const (q : ℚ)
  | fn (b : PBuiltin)

/-- A value produced by evaluating an expression: a number, or a function
object (a bare reference to a whitelisted callable). -/
inductive PValue where
  | num (q : ℚ)
  | func (b : PBuiltin)

/-- The `allowed_names` dict built inside `calculate`: the six whitelisted
builtins, the four `math` functions, and the constants `math.pi` and
`math.e` (given as the exact rational values of the IEEE-754 doubles). -/
def allowed_names : List (String × PName) :=
  [("abs", .fn .abs), ("round", .fn .round), ("min", .fn .min),
   ("max", .fn .max), ("sum", .fn .sum), ("len", .fn .len),
   ("sin", .fn .sin), ("cos", .fn .cos), ("tan", .fn .tan),
   ("sqrt", .fn .sqrt),
   ("pi", .const (884279719003555 / 281474976710656 : ℚ)),
   ("e", .const (6121026514868073 / 2251799813685248 : ℚ))]

/-- The names bound in `allowed_names` — the whitelist of the spec. -/
def whitelist : List String := allowed_names.map Prod.fst

/-- Interpretations of the three transcendental `math` functions.  Their
IEEE-754 float values are not rationally axiomatisable here, so the
embedding is parametric in them; every theorem below holds for every
interpretation. -/
structure TrigModel where
  sinFn : ℚ → ℚ
  cosFn : ℚ → ℚ
  tanFn : ℚ → ℚ

/-- `math.sqrt`: raises `math domain error` on negative input, otherwise a
rational approximation of the square root that is exact on perfect squares
(as the float result is); only the exact case is exercised by the spec. -/
def pySqrt (q : ℚ) : Except String ℚ :=
  if q < 0 then .error "math domain error"
  else .ok ((Nat.sqrt (q.num.toNat * q.den) : ℚ) / (q.den : ℚ))

/-- Python one-argument `round`: round half to even. -/
def pyRound (q : ℚ) : ℚ :=
  let f : ℤ := ⌊q⌋
  let r : ℚ := q - (f : ℚ)
  if r < 1 / 2 then (f : ℚ)
  else if 1 / 2 < r then ((f + 1 : ℤ) : ℚ)
  else if f % 2 = 0 then (f : ℚ) else ((f + 1 : ℤ) : ℚ)

/-- Application of a whitelisted callable to one numeric argument.
`min`/`max`/`sum`/`len` on a single number raise a `TypeError` in Python
(a number is not iterable / has no `len`), captured as an error result. -/
def apply1 (t : TrigModel) : PBuiltin → ℚ → Except String ℚ
  | .abs, q => .ok |q|
  | .round, q => .ok (pyRound q)
  | .sin, q => .ok (t.sinFn q)
  | .cos, q => .ok (t.cosFn q)
  | .tan, q => .ok (t.tanFn q)
  | .sqrt, q => pySqrt q
  | .min, _ => .error "TypeError: int object is not iterable"
  | .max, _ => .error "TypeError: int object is not iterable"
  | .sum, _ => .error "TypeError: int object is not iterable"
  | .len, _ => .error "TypeError: object of type int has no len()"

/-- Application of a whitelisted callable to two numeric arguments; only
`min` and `max` accept two numbers (two-argument `round` takes an `int`
digit count, outside this numeric fragment and unexercised by the spec). -/
def apply2 : PBuiltin → ℚ → ℚ → Except String ℚ
  | .min, a, b => .ok (Min.min a b)
  | .max, a, b => .ok (Max.max a b)
  | _, _, _ => .error "TypeError: wrong number of arguments"

/-- Coercion of an evaluated operand to a number; arithmetic on a function
object raises a `TypeError` in Python. -/
def asNum : PValue → Except String ℚ
  | .num q => .ok q
  | .func _ => .error "TypeError: unsupported operand type"

/-- Python truthiness (`bool(x)`) of the values of this fragment: a number
is truthy exactly when it is nonzero; function objects are truthy. -/
def truthy : PValue → Bool
  | .num q => decide (q ≠ 0)
  | .func _ => true

/-- Evaluation of the guarded `eval` call — empty globals (so empty
`__builtins__`), locals `allowed_names` — over the fragment: a name not
bound in `allowed_names` raises `NameError` when (and only when) it is
evaluated, division by zero raises, operands of strict constructs are
evaluated left to right as Python does, and `and`/`or`/conditional
expressions short-circuit exactly as in Python (`a and b` returns `a`
without touching `b` when `a` is falsy, symmetrically for `or`; the
conditional evaluates only the selected branch). -/
def evalExpr (t : TrigModel) : PExpr → Except String PValue
  | .num q => .ok (.num q)
  | .name s =>
      match allowed_names.lookup s with
      | some (.const q) => .ok (.num q)
      | some (.fn b) => .ok (.func b)
      | none => .error ("NameError: name " ++ s ++ " is not defined")
  | .neg a => do
      let va ← evalExpr t a
      let qa ← asNum va
      .ok (.num (-qa))
  | .add a b => do
      let va ← evalExpr t a
      let vb ← evalExpr t b
      let qa ← asNum va
      let qb ← asNum vb
      .ok (.num (qa + qb))
  | .sub a b => do
      let va ← evalExpr t a
      let vb ← evalExpr t b
      let qa ← asNum va
      let qb ← asNum vb
      .ok (.num (qa - qb))
  | .mul a b => do
      let va ← evalExpr t a
      let vb ← evalExpr t b
      let qa ← asNum va
      let qb ← asNum vb
      .ok (.num (qa * qb))
  | .div a b => do
      let va ← evalExpr t a
      let vb ← evalExpr t b
      let qa ← asNum va
      let qb ← asNum vb
      if qb = 0 then .error "ZeroDivisionError: division by zero"
      else .ok (.num (qa / qb))
  | .call1 f a =>
      match allowed_names.lookup f with
      | none => .error ("NameError: name " ++ f ++ " is not defined")
      | some (.const _) => do
          let _ ← evalExpr t a
          .error "TypeError: float object is not callable"
      | some (.fn b) => do
          let va ← evalExpr t a
          let qa ← asNum va
          let r ← apply1 t b qa
          .ok (.num r)
  | .call2 f a b =>
      match allowed_names.lookup f with
      | none => .error ("NameError: name " ++ f ++ " is not defined")
      | some (.const _) => do
          let _ ← evalExpr t a
          let _ ← evalExpr t b
          .error "TypeError: float object is not callable"
      | some (.fn fb) => do
          let va ← evalExpr t a
          let vb ← evalExpr t b
          let qa ← asNum va
          let qb ← asNum vb
          let r ← apply2 fb qa qb
          .ok (.num r)
  | .and a b => do
      let va ← evalExpr t a
      if truthy va then evalExpr t b else .ok va
  | .or a b => do
      let va ← evalExpr t a
      if truthy va then .ok va else evalExpr t b
  | .ifExp test body orelse => do
      let vt ← evalExpr t test
      if truthy vt then evalExpr t body else evalExpr t orelse

/-- All names referenced anywhere in an expression — the "symbols" of the
original claim, including those in short-circuited positions. -/
def symbols : PExpr → List String
  | .num _ => []
  | .name s => [s]
  | .neg a => symbols a
  | .add a b => symbols a ++ symbols b
  | .sub a b => symbols a ++ symbols b
  | .mul a b => symbols a ++ symbols b
  | .div a b => symbols a ++ symbols b
  | .call1 f a => f :: symbols a
  | .call2 f a b => f :: (symbols a ++ symbols b)
  | .and a b => symbols a ++ symbols b
  | .or a b => symbols a ++ symbols b
  | .ifExp test body orelse => symbols test ++ (symbols body ++ symbols orelse)

/-- The names in positions that evaluation necessarily evaluates: every
strict operand, but only the left operand of `and`/`or` and only the test of
a conditional expression — the right operand and the two branches may be
skipped by short-circuiting, so a name there may never be resolved. -/
def eagerSymbols : PExpr → List String
  | .num _ => []
  | .name s => [s]
  | .neg a => eagerSymbols a
  | .add a b => eagerSymbols a ++ eagerSymbols b
  | .sub a b => eagerSymbols a ++ eagerSymbols b
  | .mul a b => eagerSymbols a ++ eagerSymbols b
  | .div a b => eagerSymbols a ++ eagerSymbols b
  | .call1 f a => f :: eagerSymbols a
  | .call2 f a b => f :: (eagerSymbols a ++ eagerSymbols b)
  | .and a _ => eagerSymbols a
  | .or a _ => eagerSymbols a
  | .ifExp test _ _ => eagerSymbols test

/-- `WebInterface.calculate(expression)`: evaluate inside `try`, answer
`{"success": True, ..., "result": result, ...}` on success and
`{"success": False, ..., "error": str(e)}` on any exception.  The echoed
`"expression"` string and the `"type"` name (`int`/`float`) depend on the
surface text and the int/float distinction, which the rational AST does not
carry; those two echo fields are omitted.  When evaluation yields a bare
function object, `json.dumps(response)` raises a `TypeError` inside the same
`try`, hence the error payload in the `.func` case. -/
def calculate (t : TrigModel) (expression : PExpr) : JValue :=
  match evalExpr t expression with
  | .ok (.num q) => .obj [("success", .bool true), ("result", .num q)]
  | .ok (.func _) =>
      .obj [("success", .bool false),
            ("error", .str "TypeError: Object of type builtin_function_or_method is not JSON serializable")]
  | .error msg => .obj [("success", .bool false), ("error", .str msg)]

/-- A concrete interpretation of the transcendental functions, used to
instantiate witnesses. -/
def trig0 : TrigModel := ⟨fun _ => 0, fun _ => 0, fun _ => 0⟩

/-- The spec's rejected example `__import__(...)`, at AST level: a call to
the non-whitelisted name `__import__`. -/
def importOsExpr : PExpr := .call1 "__import__" (.name "os")

/-- The spec's accepted example `sqrt(16)+2`, at AST level. -/
def sqrt16Plus2 : PExpr := .add (.call1 "sqrt" (.num 16)) (.num 2)

/-- The short-circuit probe `0 and __import__(os)`: Python's `and` returns
the falsy left operand `0` without ever evaluating the right one, so the
call to the non-whitelisted `__import__` is never resolved.  (The string
literal argument `'os'` of the spec's surface form lies outside the numeric
fragment; the equally non-whitelisted name `os` stands in for it — the
operand is never evaluated, so evaluation cannot tell them apart.) -/
def andImportOsExpr : PExpr := .and (.num 0) (.call1 "__import__" (.name "os"))

end WebInterface

namespace PythonBridge

/-- A row of the `user_data` table: `id INTEGER PRIMARY KEY AUTOINCREMENT`,
`name TEXT`, `value TEXT`, `timestamp DATETIME DEFAULT CURRENT_TIMESTAMP`. -/
structure DBRec where
  id : Nat
  name : String
  value : String
  timestamp : Nat
deriving DecidableEq

/-- A row of the `logs` table. -/
structure DBLog where
  id : Nat
  level : String
  message : String
  timestamp : Nat
deriving DecidableEq

/-- The persistent store behind `PythonBridge`: the two tables in insertion
order, the two `AUTOINCREMENT` sequence counters kept by SQLite in
`sqlite_sequence` (the largest identifier ever issued per table), and the
abstract clock feeding `CURRENT_TIMESTAMP`. -/
structure DBState where
  user_data : List DBRec
  logs : List DBLog
  user_seq : Nat
  log_seq : Nat
  clock : Nat
deriving DecidableEq

/-- `PythonBridge.init_database` on a fresh store: both tables created
empty, sequences at zero. -/
def init_database : DBState := ⟨[], [], 0, 0, 0⟩

/-- `PythonBridge.log_action(level, message)`: insert one row into `logs`;
`AUTOINCREMENT` assigns the next identifier past the sequence. -/
def log_action (level message : String) (db : DBState) : DBState :=
  { db with
    logs := db.logs ++ [⟨db.log_seq + 1, level, message, db.clock⟩],
    log_seq := db.log_seq + 1,
    clock := db.clock + 1 }

/-- `PythonBridge.save_data(name, value)`: insert the row, read back
`cursor.lastrowid`, log the action, and answer the success payload with the
new identifier. -/
def save_data (name value : String) (db : DBState) : JValue × DBState :=
  let record_id := db.user_seq + 1
  let db1 : DBState :=
    { db with
      user_data := db.user_data ++ [⟨record_id, name, value, db.clock⟩],
      user_seq := record_id,
      clock := db.clock + 1 }
  let db2 := log_action "INFO" ("Data saved: " ++ name ++ " = " ++ value) db1
  (.obj [("success", .bool true), ("id", .num (record_id : ℚ))], db2)

/-- `PythonBridge.delete_data(record_id)`: run the `DELETE`, read
`cursor.rowcount`, then log and answer success when a row matched, else
answer the `Record not found` payload without logging. -/
def delete_data (record_id : ℤ) (db : DBState) : JValue × DBState :=
  let affected_rows := db.user_data.countP (fun r => ((r.id : ℤ) == record_id))
  let db1 : DBState :=
    { db with user_data := db.user_data.filter (fun r => !((r.id : ℤ) == record_id)) }
  if affected_rows > 0 then
    let db2 := log_action "INFO" ("Data deleted: ID " ++ toString record_id) db1
    (.obj [("success", .bool true)], db2)
  else
    (.obj [("success", .bool false), ("error", .str "Record not found")], db1)

/-- The JSON object built for one row by `PythonBridge.get_all_data`. -/
def recToJson (r : DBRec) : JValue :=
  .obj [("id", .num (r.id : ℚ)), ("name", .str r.name),
        ("value", .str r.value),
        ("timestamp", .str (sqliteTimestamp r.timestamp))]

/-- Insertion step of the model's `ORDER BY timestamp DESC` sort. -/
def insertTsDesc (r : DBRec) : List DBRec → List DBRec
  | [] => [r]
  | x :: xs =>
      if x.timestamp ≤ r.timestamp then r :: x :: xs else x :: insertTsDesc r xs

/-- The rows ordered by `timestamp` descending (one order consistent with
the SQL `ORDER BY timestamp DESC`, which leaves ties unspecified). -/
def sortTsDesc : List DBRec → List DBRec
  | [] => []
  | x :: xs => insertTsDesc x (sortTsDesc xs)

/-- `PythonBridge.get_all_data()`: all rows of `user_data`, most recent
timestamp first, as a JSON array. -/
def get_all_data (db : DBState) : JValue :=
  .arr ((sortTsDesc db.user_data).map recToJson)

/-- `AdvancedWebView.clear_app_data` (the confirmed branch): `DELETE FROM
user_data` and `DELETE FROM logs`.  The tables are not dropped and the
`sqlite_sequence` entries of the two `AUTOINCREMENT` tables are untouched. -/
def clear_app_data (db : DBState) : DBState :=
  { db with user_data := [], logs := [] }

/-- The state-mutating bridge operations of the record-store variant
(`get_system_info`, `get_all_data` and `select_file` only read). -/
inductive BOp where
  | save (name value : String)
  | delete (record_id : ℤ)
  | log (level message : String)
  | clear
deriving DecidableEq

/-- One operation, state part. -/
def step (db : DBState) : BOp → DBState
  | .save n v => (save_data n v db).2
  | .delete i => (delete_data i db).2
  | .log l m => log_action l m db
  | .clear => clear_app_data db

/-- A sequence of operations from a given store state. -/
def run (db : DBState) : List BOp → DBState
  | [] => db
  | op :: ops => run (step db op) ops

/-- The `user_data` identifiers issued (returned by `save_data`) along a
sequence of operations, in order of assignment. -/
def issuedRecIds (db : DBState) : List BOp → List Nat
  | [] => []
  | .save n v :: ops => (db.user_seq + 1) :: issuedRecIds (step db (.save n v)) ops
  | .delete i :: ops => issuedRecIds (step db (.delete i)) ops
  | .log l m :: ops => issuedRecIds (step db (.log l m)) ops
  | .clear :: ops => issuedRecIds (step db .clear) ops

/-- The `logs` identifiers issued along a sequence of operations, in order
of assignment (`save_data` logs; `delete_data` logs only when a row
matched). -/
def issuedLogIds (db : DBState) : List BOp → List Nat
  | [] => []
  | .save n v :: ops => (db.log_seq + 1) :: issuedLogIds (step db (.save n v)) ops
  | .log l m :: ops => (db.log_seq + 1) :: issuedLogIds (step db (.log l m)) ops
  | .delete i :: ops =>
      (if db.user_data.countP (fun r => ((r.id : ℤ) == i)) > 0
       then [db.log_seq + 1] else [])
      ++ issuedLogIds (step db (.delete i)) ops
  | .clear :: ops => issuedLogIds (step db .clear) ops

end PythonBridge

namespace WebInterface

theorem lookup_cons_unfold (k k0 : String) (e0 : JValue) (l : List (String × JValue)) :
    List.lookup k ((k0, e0) :: l) = if k = k0 then some e0 else List.lookup k l := by
  by_cases h : k = k0
  · simp [List.lookup, h]
  · have hb : (k == k0) = false := beq_eq_false_iff_ne.mpr h
    simp [List.lookup, hb, h]

theorem lookup_setKey_self (k : String) (e : JValue) (l : List (String × JValue)) :
    (setKey k e l).lookup k = some e := by
  induction l with
  | nil => simp [setKey, lookup_cons_unfold]
  | cons p rest ih =>
    obtain ⟨k', e'⟩ := p
    by_cases h : k' = k
    · subst h; simp [setKey, lookup_cons_unfold]
    · simp [setKey, h, lookup_cons_unfold, Ne.symm h, ih]

theorem lookup_setKey_ne (k k' : String) (e : JValue) (l : List (String × JValue))
    (h : k ≠ k') : (setKey k' e l).lookup k = l.lookup k := by
  induction l with
  | nil =>
    simp only [setKey]
    rw [lookup_cons_unfold, if_neg h]
  | cons p rest ih =>
    obtain ⟨k0, e0⟩ := p
    by_cases h0 : k0 = k'
    · subst h0
      simp [setKey, lookup_cons_unfold, h]
    · simp [setKey, h0, lookup_cons_unfold, ih]

theorem mem_setKey (p : String × JValue) (k : String) (e : JValue)
    (l : List (String × JValue)) (hp : p ∈ setKey k e l) :
    p = (k, e) ∨ p ∈ l := by
  induction l with
  | nil => simpa [setKey] using hp
  | cons q rest ih =>
    obtain ⟨k0, e0⟩ := q
    by_cases h0 : k0 = k
    · subst h0
      rw [setKey, if_pos rfl] at hp
      rcases List.mem_cons.mp hp with hh | hh
      · exact Or.inl hh
      · exact Or.inr (List.mem_cons_of_mem _ hh)
    · rw [setKey, if_neg h0] at hp
      rcases List.mem_cons.mp hp with hh | hh
      · exact Or.inr (List.mem_cons.mpr (Or.inl hh))
      · rcases ih hh with hh' | hh'
        · exact Or.inl hh'
        · exact Or.inr (List.mem_cons_of_mem _ hh')

theorem keys_nodup_setKey (k : String) (e : JValue) (l : List (String × JValue))
    (h : (l.map Prod.fst).Nodup) : ((setKey k e l).map Prod.fst).Nodup := by
  induction l with
  | nil => simp [setKey]
  | cons q rest ih =>
    obtain ⟨k0, e0⟩ := q
    simp only [List.map_cons, List.nodup_cons] at h
    by_cases h0 : k0 = k
    · subst h0
      rw [setKey, if_pos rfl]
      simpa [List.nodup_cons] using h
    · have hrest := ih h.2
      rw [setKey, if_neg h0]
      simp only [List.map_cons, List.nodup_cons]
      refine ⟨?_, hrest⟩
      intro hmem
      rcases List.mem_map.mp hmem with ⟨p, hp, hfst⟩
      rcases mem_setKey p k e rest hp with hh | hh
      · apply h0
        rw [hh] at hfst
        exact hfst.symm
      · exact h.1 (List.mem_map.mpr ⟨p, hh, hfst⟩)

theorem countKey_eq_zero_of_not_mem (k : String) (l : List (String × JValue))
    (h : k ∉ l.map Prod.fst) : countKey k l = 0 := by
  rw [countKey, List.countP_eq_zero]
  intro p hp
  simp only [beq_iff_eq]
  intro hk
  exact h (List.mem_map.mpr ⟨p, hp, hk⟩)

theorem countKey_setKey_self (k : String) (e : JValue) (l : List (String × JValue))
    (h : (l.map Prod.fst).Nodup) : countKey k (setKey k e l) = 1 := by
  induction l with
  | nil => simp [setKey, countKey]
  | cons q rest ih =>
    obtain ⟨k0, e0⟩ := q
    simp only [List.map_cons, List.nodup_cons] at h
    by_cases h0 : k0 = k
    · subst h0
      have hz : countKey k0 rest = 0 :=
        countKey_eq_zero_of_not_mem k0 rest h.1
      rw [setKey, if_pos rfl, countKey, List.countP_cons]
      rw [countKey] at hz
      simp [hz]
    · have hrest := ih h.2
      rw [setKey, if_neg h0, countKey, List.countP_cons]
      rw [countKey] at hrest
      have hb : (k0 == k) = false := beq_eq_false_iff_ne.mpr h0
      simp [hb, hrest]

theorem keys_nodup_mrun (ops : List MOp) (st : State)
    (h : (st.user_data.map Prod.fst).Nodup) :
    ((mrun st ops).user_data.map Prod.fst).Nodup := by
  induction ops generalizing st with
  | nil => simpa [mrun] using h
  | cons op ops ih =>
    cases op with
    | store k v =>
      exact ih (store_data k v st) (keys_nodup_setKey k _ st.user_data h)
    | clear => exact ih (clear_data st) (by simp [clear_data])

theorem lookup_none_mrun (ops : List MOp) (st : State) (k : String)
    (h : st.user_data.lookup k = none)
    (hops : ∀ v : String, MOp.store k v ∉ ops) :
    (mrun st ops).user_data.lookup k = none := by
  induction ops generalizing st with
  | nil => simpa [mrun] using h
  | cons op ops ih =>
    cases op with
    | store k' v =>
      have hk : k ≠ k' := by
        intro hkk
        exact hops v (by rw [hkk]; exact List.mem_cons_self _ _)
      refine ih (store_data k' v st) ?_ ?_
      · show (setKey k' _ st.user_data).lookup k = none
        rw [lookup_setKey_ne k k' _ st.user_data hk]
        exact h
      · intro v0 hv0
        exact hops v0 (List.mem_cons_of_mem _ hv0)
    | clear =>
      refine ih (clear_data st) (by simp [clear_data, List.lookup]) ?_
      intro v0 hv0
      exact hops v0 (List.mem_cons_of_mem _ hv0)

theorem entries_shaped_mrun (ops : List MOp) (st : State)
    (h : ∀ p ∈ st.user_data, ∃ v t,
        p.2 = JValue.obj [("value", .str v), ("timestamp", .str t), ("type", .str "str")]) :
    ∀ p ∈ (mrun st ops).user_data, ∃ v t,
        p.2 = JValue.obj [("value", .str v), ("timestamp", .str t), ("type", .str "str")] := by
  induction ops generalizing st with
  | nil => simpa [mrun] using h
  | cons op ops ih =>
    cases op with
    | store k v =>
      refine ih (store_data k v st) ?_
      intro p hp
      rcases mem_setKey p k _ st.user_data hp with hh | hh
      · exact ⟨v, isoTimestamp st.clock, by rw [hh]; simp [str_type_name]⟩
      · exact h p hh
    | clear =>
      refine ih (clear_data st) ?_
      intro p hp
      simp [clear_data] at hp

end WebInterface

namespace WebInterface

theorem get_data_store_self (k v : String) (st : State) :
    get_data k (store_data k v st) =
      JValue.obj [("value", .str v),
                  ("timestamp", .str (isoTimestamp st.clock)),
                  ("type", .str (str_type_name v))] := by
  have hl := lookup_setKey_self k
    (JValue.obj [("value", .str v),
                 ("timestamp", .str (isoTimestamp st.clock)),
                 ("type", .str (str_type_name v))])
    st.user_data
  simp [get_data, store_data, hl]

/-- C7: in the map-based variant, `getData(k)` before any `storeData(k, ·)`
returns the structured key-absent error payload; after `storeData(k, v)`,
`getData(k)` returns a payload whose `value` field equals `v`; and a
subsequent `storeData(k, v2)` overwrites the single entry for `k` —
`getData(k)` then yields `v2` and the map holds exactly one entry for `k`. -/
theorem store_get_contract (ops : List MOp) (k v v2 : String) :
    ((∀ v0 : String, MOp.store k v0 ∉ ops) →
        get_data k (mrun init ops) =
          .obj [("error", .str ("数据键 " ++ k ++ " 不存在"))]) ∧
    JValue.getField (get_data k (store_data k v (mrun init ops))) "value"
      = some (.str v) ∧
    JValue.getField
        (get_data k (store_data k v2 (store_data k v (mrun init ops)))) "value"
      = some (.str v2) ∧
    countKey k (store_data k v2 (store_data k v (mrun init ops))).user_data = 1 := by
  have hnodup : (((mrun init ops).user_data).map Prod.fst).Nodup :=
    keys_nodup_mrun ops init (by simp [init])
  refine ⟨?_, ?_, ?_, ?_⟩
  · intro hops
    have hn := lookup_none_mrun ops init k (by simp [init, List.lookup]) hops
    simp [get_data, hn]
  · rw [get_data_store_self]
    rfl
  · rw [get_data_store_self]
    rfl
  · have hnodup1 : (((store_data k v (mrun init ops)).user_data).map Prod.fst).Nodup :=
      keys_nodup_setKey k _ (mrun init ops).user_data hnodup
    exact countKey_setKey_self k _ (store_data k v (mrun init ops)).user_data hnodup1

/-- Witness for `store_get_contract` at `ops = []`, `k = "k"`, `v = "1"`,
`v2 = "2"`. -/
theorem store_get_contract_witness :
    get_data "k" (mrun init []) =
      .obj [("error", .str ("数据键 " ++ "k" ++ " 不存在"))] ∧
    JValue.getField (get_data "k" (store_data "k" "1" (mrun init []))) "value"
      = some (.str "1") ∧
    JValue.getField
        (get_data "k" (store_data "k" "2" (store_data "k" "1" (mrun init [])))) "value"
      = some (.str "2") ∧
    countKey "k" (store_data "k" "2" (store_data "k" "1" (mrun init []))).user_data = 1 := by
  have h := store_get_contract [] "k" "1" "2"
  exact ⟨h.1 (by intro v0 hv0; exact (List.not_mem_nil _ hv0)),
         h.2.1, h.2.2.1, h.2.2.2⟩

/-- C10: after every sequence of `storeData`/`clearData` calls, every entry
of the in-memory map is an object with exactly the three fields `value`,
`timestamp` and `type`, and its `type` field equals `"str"` (the slot
coerces the stored value to `str`). -/
theorem map_entries_shape_invariant (ops : List MOp) (p : String × JValue)
    (hp : p ∈ (mrun init ops).user_data) :
    ∃ v t, p.2 = JValue.obj
        [("value", .str v), ("timestamp", .str t), ("type", .str "str")] :=
  entries_shaped_mrun ops init (by intro q hq; simp [init] at hq) p hp

/-- Witness for `map_entries_shape_invariant` after one
`storeData("a", "b")`. -/
theorem map_entries_shape_invariant_witness :
    ∃ v t, (("a", JValue.obj
        [("value", JValue.str "b"), ("timestamp", JValue.str "0"),
         ("type", JValue.str "str")]) : String × JValue).2 =
      JValue.obj [("value", JValue.str v), ("timestamp", JValue.str t),
                  ("type", JValue.str "str")] :=
  map_entries_shape_invariant [MOp.store "a" "b"] _
    (List.mem_singleton.mpr rfl)

end WebInterface

namespace WebInterface

/-- C1 (failing input): the security check of `read_file` is a bare string
prefix test on the resolved path, so a sibling of the application directory
whose name shares the prefix — here root `/app/src` and the resolved path
`/app/srcX/secret.txt`, which lies outside the root — passes the check and
the file content is returned with `success: true`, where the claim (and the
code's own security comment) demands a structured error. -/
theorem read_file_prefix_escape :
    underRoot "/app/src" "/app/srcX/secret.txt" = false ∧
    read_file "/app/src" (fun p => p)
        (fun p => if p = "/app/srcX/secret.txt"
                  then .ok "TOP-SECRET" else .missing)
        "/app/srcX/secret.txt"
      = .obj [("success", .bool true),
              ("file_path", .str "/app/srcX/secret.txt"),
              ("content", .str "TOP-SECRET"),
              ("size", .num 10)] := by
  exact ⟨rfl, rfl⟩

/-- C9 (counterexample): a traversal argument resolving outside the root —
`../../etc/passwd` resolved to `/etc/passwd` against a working directory
under `/app/src` — gets the security-rejection payload, which carries only
an `error` field and no `success` field at all. -/
theorem read_file_error_payload_lacks_success :
    read_file "/app/src" (fun _ => "/etc/passwd") (fun _ => .missing)
        "../../etc/passwd"
      = .obj [("error", .str "安全限制：只能访问应用程序目录下的文件")] ∧
    JValue.getField
        (read_file "/app/src" (fun _ => "/etc/passwd") (fun _ => .missing)
          "../../etc/passwd") "success" = none := by
  exact ⟨rfl, rfl⟩

/-- C9 (amended): for every path argument, the payload returned by
`read_file` is either a success payload with `success: true` and `content`
and `size` fields, or an error payload with an `error` field; the
security-rejection and file-not-found payloads carry only the `error` field
(no `success` field), and only the exception payload carries
`success: false`. -/
theorem read_file_payload_shape (app_dir : String) (abspath : String → String)
    (fs : String → FileOutcome) (file_path : String) :
    (JValue.getField (read_file app_dir abspath fs file_path) "success"
        = some (.bool true) ∧
     (∃ c, JValue.getField (read_file app_dir abspath fs file_path) "content"
        = some (.str c)) ∧
     (∃ n, JValue.getField (read_file app_dir abspath fs file_path) "size"
        = some (.num n))) ∨
    (∃ msg, JValue.getField (read_file app_dir abspath fs file_path) "error"
        = some (.str msg)) := by
  cases h : strStartsWith (abspath file_path) app_dir with
  | false =>
    have he : read_file app_dir abspath fs file_path
        = .obj [("error", .str "安全限制：只能访问应用程序目录下的文件")] := by
      simp [read_file, h]
    exact Or.inr ⟨_, by rw [he]; rfl⟩
  | true =>
    cases hfs : fs (abspath file_path) with
    | missing =>
      have he : read_file app_dir abspath fs file_path
          = .obj [("error", .str ("文件不存在: " ++ file_path))] := by
        simp [read_file, h, hfs]
      exact Or.inr ⟨_, by rw [he]; rfl⟩
    | readError msg =>
      have he : read_file app_dir abspath fs file_path
          = .obj [("success", .bool false), ("error", .str msg),
                  ("file_path", .str file_path)] := by
        simp [read_file, h, hfs]
      exact Or.inr ⟨msg, by rw [he]; rfl⟩
    | ok content =>
      have he : read_file app_dir abspath fs file_path
          = .obj [("success", .bool true), ("file_path", .str file_path),
                  ("content", .str content),
                  ("size", .num (content.length : ℚ))] := by
        simp [read_file, h, hfs]
      exact Or.inl ⟨by rw [he]; rfl, ⟨content, by rw [he]; rfl⟩,
                    ⟨(content.length : ℚ), by rw [he]; rfl⟩⟩

end WebInterface

theorem except_bind_ok {α β : Type} (x : Except String α) (f : α → Except String β)
    (b : β) (h : (x >>= f) = .ok b) : ∃ a, x = .ok a ∧ f a = .ok b := by
  cases x with
  | error e => simp [Bind.bind, Except.bind] at h
  | ok a => exact ⟨a, rfl, by simpa [Bind.bind, Except.bind] using h⟩

namespace WebInterface

theorem lookup_isSome_mem (l : List (String × PName)) (k : String)
    (h : (l.lookup k).isSome) : k ∈ l.map Prod.fst := by
  induction l with
  | nil => simp [List.lookup] at h
  | cons p rest ih =>
    obtain ⟨k0, v0⟩ := p
    by_cases hk : k = k0
    · simp [hk]
    · have hb : (k == k0) = false := beq_eq_false_iff_ne.mpr hk
      simp only [List.lookup, hb] at h
      simp [ih h]

theorem evalExpr_ok_eagerSymbols (t : TrigModel) (e : PExpr) (v : PValue)
    (h : evalExpr t e = .ok v) : ∀ s ∈ eagerSymbols e, s ∈ whitelist := by
  induction e generalizing v with
  | num q => simp [eagerSymbols]
  | name s =>
    intro s' hs'
    simp only [eagerSymbols, List.mem_singleton] at hs'
    subst hs'
    simp only [evalExpr] at h
    cases hl : allowed_names.lookup s' with
    | none => rw [hl] at h; exact absurd h (by simp)
    | some pn =>
      exact lookup_isSome_mem allowed_names s' (by simp [hl])
  | neg a ih =>
    simp only [evalExpr] at h
    obtain ⟨va, hva, _⟩ := except_bind_ok _ _ _ h
    simpa [eagerSymbols] using ih va hva
  | add a b iha ihb =>
    simp only [evalExpr] at h
    obtain ⟨va, hva, h⟩ := except_bind_ok _ _ _ h
    obtain ⟨vb, hvb, _⟩ := except_bind_ok _ _ _ h
    intro s hs
    rcases List.mem_append.mp (by simpa [eagerSymbols] using hs) with hsa | hsb
    · exact iha va hva s hsa
    · exact ihb vb hvb s hsb
  | sub a b iha ihb =>
    simp only [evalExpr] at h
    obtain ⟨va, hva, h⟩ := except_bind_ok _ _ _ h
    obtain ⟨vb, hvb, _⟩ := except_bind_ok _ _ _ h
    intro s hs
    rcases List.mem_append.mp (by simpa [eagerSymbols] using hs) with hsa | hsb
    · exact iha va hva s hsa
    · exact ihb vb hvb s hsb
  | mul a b iha ihb =>
    simp only [evalExpr] at h
    obtain ⟨va, hva, h⟩ := except_bind_ok _ _ _ h
    obtain ⟨vb, hvb, _⟩ := except_bind_ok _ _ _ h
    intro s hs
    rcases List.mem_append.mp (by simpa [eagerSymbols] using hs) with hsa | hsb
    · exact iha va hva s hsa
    · exact ihb vb hvb s hsb
  | div a b iha ihb =>
    simp only [evalExpr] at h
    obtain ⟨va, hva, h⟩ := except_bind_ok _ _ _ h
    obtain ⟨vb, hvb, _⟩ := except_bind_ok _ _ _ h
    intro s hs
    rcases List.mem_append.mp (by simpa [eagerSymbols] using hs) with hsa | hsb
    · exact iha va hva s hsa
    · exact ihb vb hvb s hsb
  | call1 f a ih =>
    simp only [evalExpr] at h
    intro s hs
    rcases List.mem_cons.mp (by simpa [eagerSymbols] using hs) with hsf | hsa
    · subst hsf
      cases hl : allowed_names.lookup s with
      | none => rw [hl] at h; exact absurd h (by simp)
      | some pn => exact lookup_isSome_mem allowed_names s (by simp [hl])
    · cases hl : allowed_names.lookup f with
      | none => rw [hl] at h; exact absurd h (by simp)
      | some pn =>
        rw [hl] at h
        cases pn with
        | const q =>
          obtain ⟨va, hva, hbad⟩ := except_bind_ok _ _ _ h
          exact absurd hbad (by simp)
        | fn b =>
          obtain ⟨va, hva, _⟩ := except_bind_ok _ _ _ h
          exact ih va hva s hsa
  | call2 f a b iha ihb =>
    simp only [evalExpr] at h
    intro s hs
    have hs3 : s = f ∨ s ∈ eagerSymbols a ∨ s ∈ eagerSymbols b := by
      simpa [eagerSymbols] using hs
    rcases hs3 with hsf | hsab
    · subst hsf
      cases hl : allowed_names.lookup s with
      | none => rw [hl] at h; exact absurd h (by simp)
      | some pn => exact lookup_isSome_mem allowed_names s (by simp [hl])
    · cases hl : allowed_names.lookup f with
      | none => rw [hl] at h; exact absurd h (by simp)
      | some pn =>
        rw [hl] at h
        cases pn with
        | const q =>
          obtain ⟨va, hva, h⟩ := except_bind_ok _ _ _ h
          obtain ⟨vb, hvb, hbad⟩ := except_bind_ok _ _ _ h
          exact absurd hbad (by simp)
        | fn fb =>
          obtain ⟨va, hva, h⟩ := except_bind_ok _ _ _ h
          obtain ⟨vb, hvb, _⟩ := except_bind_ok _ _ _ h
          rcases hsab with hsa | hsb
          · exact iha va hva s hsa
          · exact ihb vb hvb s hsb
  | and a b iha ihb =>
    simp only [evalExpr] at h
    obtain ⟨va, hva, _⟩ := except_bind_ok _ _ _ h
    simpa [eagerSymbols] using iha va hva
  | or a b iha ihb =>
    simp only [evalExpr] at h
    obtain ⟨va, hva, _⟩ := except_bind_ok _ _ _ h
    simpa [eagerSymbols] using iha va hva
  | ifExp test body orelse ihtest ihbody ihorelse =>
    simp only [evalExpr] at h
    obtain ⟨vt, hvt, _⟩ := except_bind_ok _ _ _ h
    simpa [eagerSymbols] using ihtest vt hvt

/-- C2 (counterexample): `0 and __import__(os)` is an expression containing
the non-whitelisted symbol `__import__`, yet `calculate` answers
`{success: true, result: 0}` — Python's `and` short-circuits on the falsy
left operand and the non-whitelisted name is never looked up, so the claim
"every expression containing a symbol outside the whitelist returns success
false" is false on the code. -/
theorem calculate_short_circuit_success :
    calculate trig0 andImportOsExpr
      = .obj [("success", .bool true), ("result", .num 0)] ∧
    "__import__" ∈ symbols andImportOsExpr ∧
    "__import__" ∉ whitelist := by
  exact ⟨rfl, by decide, by decide⟩

/-- C2 (amended): `calculate` never raises and never resolves (hence never
executes) a name outside the whitelist: whenever a non-whitelisted name
occurs in a position evaluation necessarily evaluates — any position not
confined to a short-circuited `and`/`or` operand or an untaken conditional
branch — the guarded `eval` raises (`NameError`, from the empty
`__builtins__`), and `calculate` catches it and answers the structured
`success: false` payload with an error string; in particular
`calculate("__import__('os')")` returns a structured error.  A
non-whitelisted name confined to short-circuited operands may still yield a
success payload, as the counterexample shows. -/
theorem calculate_rejects_non_whitelisted (t : TrigModel) (e : PExpr)
    (h : ∃ s ∈ eagerSymbols e, s ∉ whitelist) :
    ∃ msg, calculate t e
      = .obj [("success", .bool false), ("error", .str msg)] := by
  obtain ⟨s, hs, hnot⟩ := h
  cases hv : evalExpr t e with
  | ok v => exact absurd (evalExpr_ok_eagerSymbols t e v hv s hs) hnot
  | error msg => exact ⟨msg, by simp [calculate, hv]⟩

/-- Witness for `calculate_rejects_non_whitelisted` at the spec's example
`__import__(os)`, whose head name sits in an always-evaluated position. -/
theorem calculate_rejects_non_whitelisted_witness :
    ∃ msg, calculate trig0 importOsExpr
      = .obj [("success", .bool false), ("error", .str msg)] :=
  calculate_rejects_non_whitelisted trig0 importOsExpr
    ⟨"__import__", by decide, by decide⟩

/-- C8: `calculate("sqrt(16)+2")` answers the success payload with result
`6` (the float `sqrt(16)` is exactly `4.0`, so `4.0 + 2` is exactly `6`),
for every interpretation of the transcendental functions. -/
theorem calculate_sqrt16_result_6 (t : TrigModel) :
    calculate t sqrt16Plus2
      = .obj [("success", .bool true), ("result", .num 6)] := by
  have hsq : Nat.sqrt 16 = 4 := by
    rw [show (16 : ℕ) = 4 * 4 by norm_num, Nat.sqrt_eq]
  have hps : pySqrt 16 = .ok 4 := by
    rw [pySqrt]
    norm_num
    rw [show Int.toNat 16 = 16 from rfl, hsq]
    norm_num
  have hev : evalExpr t sqrt16Plus2 = .ok (.num 6) := by
    simp only [sqrt16Plus2, evalExpr]
    rw [show allowed_names.lookup "sqrt" = some (.fn .sqrt) from rfl]
    simp [apply1, hps, asNum, Bind.bind, Except.bind]
    norm_num
  simp [calculate, hev]

end WebInterface

namespace PythonBridge

theorem insertTsDesc_perm (r : DBRec) (l : List DBRec) :
    (insertTsDesc r l).Perm (r :: l) := by
  induction l with
  | nil => exact List.Perm.refl _
  | cons x xs ih =>
    rw [insertTsDesc]
    by_cases h : x.timestamp ≤ r.timestamp
    · rw [if_pos h]
    · rw [if_neg h]
      exact (ih.cons x).trans (List.Perm.swap r x xs)

theorem sortTsDesc_perm (l : List DBRec) : (sortTsDesc l).Perm l := by
  induction l with
  | nil => exact List.Perm.refl _
  | cons x xs ih =>
    rw [sortTsDesc]
    exact (insertTsDesc_perm x (sortTsDesc xs)).trans (ih.cons x)

theorem step_save_user_data (n v : String) (db : DBState) :
    (step db (.save n v)).user_data
      = db.user_data ++ [⟨db.user_seq + 1, n, v, db.clock⟩] := rfl

theorem step_save_user_seq (n v : String) (db : DBState) :
    (step db (.save n v)).user_seq = db.user_seq + 1 := rfl

theorem step_save_log_seq (n v : String) (db : DBState) :
    (step db (.save n v)).log_seq = db.log_seq + 1 := rfl

theorem step_log_facts (lv m : String) (db : DBState) :
    (step db (.log lv m)).user_data = db.user_data ∧
    (step db (.log lv m)).user_seq = db.user_seq ∧
    (step db (.log lv m)).log_seq = db.log_seq + 1 := ⟨rfl, rfl, rfl⟩

theorem step_clear_facts (db : DBState) :
    (step db .clear).user_data = [] ∧
    (step db .clear).user_seq = db.user_seq ∧
    (step db .clear).log_seq = db.log_seq := ⟨rfl, rfl, rfl⟩

theorem step_delete_user_data (i : ℤ) (db : DBState) :
    (step db (.delete i)).user_data
      = db.user_data.filter (fun r => !((r.id : ℤ) == i)) := by
  simp only [step, delete_data]
  split <;> rfl

theorem step_delete_user_seq (i : ℤ) (db : DBState) :
    (step db (.delete i)).user_seq = db.user_seq := by
  simp only [step, delete_data]
  split <;> rfl

theorem step_delete_log_seq_le (i : ℤ) (db : DBState) :
    db.log_seq ≤ (step db (.delete i)).log_seq := by
  simp only [step, delete_data]
  split
  · exact Nat.le_succ _
  · exact Nat.le_refl _

theorem step_delete_log_seq_pos (i : ℤ) (db : DBState)
    (h : 0 < db.user_data.countP (fun r => ((r.id : ℤ) == i))) :
    (step db (.delete i)).log_seq = db.log_seq + 1 := by
  simp only [step, delete_data]
  rw [if_pos h]
  rfl

theorem step_user_seq_le (db : DBState) (op : BOp) :
    db.user_seq ≤ (step db op).user_seq := by
  cases op with
  | save n v => rw [step_save_user_seq]; exact Nat.le_succ _
  | delete i => rw [step_delete_user_seq]
  | log lv m => rw [(step_log_facts lv m db).2.1]
  | clear => rw [(step_clear_facts db).2.1]

theorem step_log_seq_le (db : DBState) (op : BOp) :
    db.log_seq ≤ (step db op).log_seq := by
  cases op with
  | save n v => rw [step_save_log_seq]; exact Nat.le_succ _
  | delete i => exact step_delete_log_seq_le i db
  | log lv m => rw [(step_log_facts lv m db).2.2]; exact Nat.le_succ _
  | clear => rw [(step_clear_facts db).2.2]

theorem run_user_seq_le (ops : List BOp) (db : DBState) :
    db.user_seq ≤ (run db ops).user_seq := by
  induction ops generalizing db with
  | nil => exact Nat.le_refl _
  | cons op ops ih =>
    exact Nat.le_trans (step_user_seq_le db op) (ih (step db op))

theorem run_log_seq_le (ops : List BOp) (db : DBState) :
    db.log_seq ≤ (run db ops).log_seq := by
  induction ops generalizing db with
  | nil => exact Nat.le_refl _
  | cons op ops ih =>
    exact Nat.le_trans (step_log_seq_le db op) (ih (step db op))

theorem issuedRecIds_gt (ops : List BOp) (db : DBState) :
    ∀ x ∈ issuedRecIds db ops, db.user_seq < x := by
  induction ops generalizing db with
  | nil => simp [issuedRecIds]
  | cons op ops ih =>
    cases op with
    | save n v =>
      intro x hx
      simp only [issuedRecIds] at hx
      rcases List.mem_cons.mp hx with h | h
      · omega
      · have h1 := ih (step db (.save n v)) x h
        have h2 := step_save_user_seq n v db
        omega
    | delete i =>
      intro x hx
      simp only [issuedRecIds] at hx
      have h1 := ih (step db (.delete i)) x hx
      have h2 := step_delete_user_seq i db
      omega
    | log lv m =>
      intro x hx
      simp only [issuedRecIds] at hx
      have h1 := ih (step db (.log lv m)) x hx
      have h2 := (step_log_facts lv m db).2.1
      omega
    | clear =>
      intro x hx
      simp only [issuedRecIds] at hx
      have h1 := ih (step db .clear) x hx
      have h2 := (step_clear_facts db).2.1
      omega

theorem issuedRecIds_le (ops : List BOp) (db : DBState) :
    ∀ x ∈ issuedRecIds db ops, x ≤ (run db ops).user_seq := by
  induction ops generalizing db with
  | nil => simp [issuedRecIds]
  | cons op ops ih =>
    cases op with
    | save n v =>
      intro x hx
      simp only [issuedRecIds] at hx
      simp only [run]
      rcases List.mem_cons.mp hx with h | h
      · subst h
        have h1 := step_save_user_seq n v db
        have h2 := run_user_seq_le ops (step db (.save n v))
        omega
      · exact ih (step db (.save n v)) x h
    | delete i =>
      intro x hx
      simp only [issuedRecIds] at hx
      simp only [run]
      exact ih (step db (.delete i)) x hx
    | log lv m =>
      intro x hx
      simp only [issuedRecIds] at hx
      simp only [run]
      exact ih (step db (.log lv m)) x hx
    | clear =>
      intro x hx
      simp only [issuedRecIds] at hx
      simp only [run]
      exact ih (step db .clear) x hx

theorem issuedRecIds_pairwise (ops : List BOp) (db : DBState) :
    (issuedRecIds db ops).Pairwise (· < ·) := by
  induction ops generalizing db with
  | nil => simp [issuedRecIds]
  | cons op ops ih =>
    cases op with
    | save n v =>
      simp only [issuedRecIds]
      refine List.Pairwise.cons ?_ (ih (step db (.save n v)))
      intro x hx
      have h1 := issuedRecIds_gt ops (step db (.save n v)) x hx
      have h2 := step_save_user_seq n v db
      omega
    | delete i => simpa only [issuedRecIds] using ih (step db (.delete i))
    | log lv m => simpa only [issuedRecIds] using ih (step db (.log lv m))
    | clear => simpa only [issuedRecIds] using ih (step db .clear)

theorem issuedLogIds_gt (ops : List BOp) (db : DBState) :
    ∀ x ∈ issuedLogIds db ops, db.log_seq < x := by
  induction ops generalizing db with
  | nil => simp [issuedLogIds]
  | cons op ops ih =>
    cases op with
    | save n v =>
      intro x hx
      simp only [issuedLogIds] at hx
      rcases List.mem_cons.mp hx with h | h
      · omega
      · have h1 := ih (step db (.save n v)) x h
        have h2 := step_save_log_seq n v db
        omega
    | delete i =>
      intro x hx
      simp only [issuedLogIds] at hx
      rcases List.mem_append.mp hx with h | h
      · by_cases hc : 0 < db.user_data.countP (fun r => ((r.id : ℤ) == i))
        · rw [if_pos hc] at h
          have : x = db.log_seq + 1 := List.mem_singleton.mp h
          omega
        · rw [if_neg hc] at h
          exact absurd h (List.not_mem_nil x)
      · have h1 := ih (step db (.delete i)) x h
        have h2 := step_delete_log_seq_le i db
        omega
    | log lv m =>
      intro x hx
      simp only [issuedLogIds] at hx
      rcases List.mem_cons.mp hx with h | h
      · omega
      · have h1 := ih (step db (.log lv m)) x h
        have h2 := (step_log_facts lv m db).2.2
        omega
    | clear =>
      intro x hx
      simp only [issuedLogIds] at hx
      have h1 := ih (step db .clear) x hx
      have h2 := (step_clear_facts db).2.2
      omega

theorem issuedLogIds_pairwise (ops : List BOp) (db : DBState) :
    (issuedLogIds db ops).Pairwise (· < ·) := by
  induction ops generalizing db with
  | nil => simp [issuedLogIds]
  | cons op ops ih =>
    cases op with
    | save n v =>
      simp only [issuedLogIds]
      refine List.Pairwise.cons ?_ (ih (step db (.save n v)))
      intro x hx
      have h1 := issuedLogIds_gt ops (step db (.save n v)) x hx
      have h2 := step_save_log_seq n v db
      omega
    | delete i =>
      simp only [issuedLogIds]
      by_cases hc : 0 < db.user_data.countP (fun r => ((r.id : ℤ) == i))
      · rw [if_pos hc]
        simp only [List.singleton_append]
        refine List.Pairwise.cons ?_ (ih (step db (.delete i)))
        intro x hx
        have h1 := issuedLogIds_gt ops (step db (.delete i)) x hx
        have h2 := step_delete_log_seq_pos i db hc
        omega
      · rw [if_neg hc]
        simpa using ih (step db (.delete i))
    | log lv m =>
      simp only [issuedLogIds]
      refine List.Pairwise.cons ?_ (ih (step db (.log lv m)))
      intro x hx
      have h1 := issuedLogIds_gt ops (step db (.log lv m)) x hx
      have h2 := (step_log_facts lv m db).2.2
      omega
    | clear => simpa only [issuedLogIds] using ih (step db .clear)

/-- C5: along every sequence of bridge operations in one store lifetime, the
`user_data` identifiers are issued in strictly increasing order (hence
pairwise distinct), and so are the `logs` identifiers — `AUTOINCREMENT`
never reuses or decreases either sequence. -/
theorem issued_ids_strictly_increasing (ops : List BOp) :
    (issuedRecIds init_database ops).Pairwise (· < ·) ∧
    (issuedLogIds init_database ops).Pairwise (· < ·) :=
  ⟨issuedRecIds_pairwise ops init_database,
   issuedLogIds_pairwise ops init_database⟩

end PythonBridge

namespace PythonBridge

theorem rec_ids_sorted_step (db : DBState) (op : BOp)
    (h : (db.user_data.map (fun r => r.id)).Pairwise (· < ·) ∧
         ∀ r ∈ db.user_data, r.id ≤ db.user_seq) :
    ((step db op).user_data.map (fun r => r.id)).Pairwise (· < ·) ∧
    ∀ r ∈ (step db op).user_data, r.id ≤ (step db op).user_seq := by
  cases op with
  | save n v =>
    rw [step_save_user_data, step_save_user_seq]
    constructor
    · rw [List.map_append, List.pairwise_append]
      refine ⟨h.1, by simp, ?_⟩
      intro x hx y hy
      rcases List.mem_map.mp hx with ⟨r, hr, hrx⟩
      have hle := h.2 r hr
      simp only [List.map_cons, List.map_nil, List.mem_singleton] at hy
      omega
    · intro r hr
      rcases List.mem_append.mp hr with hh | hh
      · have := h.2 r hh; omega
      · have : r = ⟨db.user_seq + 1, n, v, db.clock⟩ := List.mem_singleton.mp hh
        rw [this]
  | delete i =>
    rw [step_delete_user_data, step_delete_user_seq]
    constructor
    · exact h.1.sublist ((List.filter_sublist _).map _)
    · intro r hr
      exact h.2 r (List.mem_of_mem_filter hr)
  | log lv m =>
    rw [(step_log_facts lv m db).1, (step_log_facts lv m db).2.1]
    exact h
  | clear =>
    rw [(step_clear_facts db).1, (step_clear_facts db).2.1]
    exact ⟨by simp, by simp⟩

theorem rec_ids_sorted_run (ops : List BOp) (db : DBState)
    (h : (db.user_data.map (fun r => r.id)).Pairwise (· < ·) ∧
         ∀ r ∈ db.user_data, r.id ≤ db.user_seq) :
    (((run db ops).user_data.map (fun r => r.id)).Pairwise (· < ·)) ∧
    ∀ r ∈ (run db ops).user_data, r.id ≤ (run db ops).user_seq := by
  induction ops generalizing db with
  | nil => simpa [run] using h
  | cons op ops ih => exact ih (step db op) (rec_ids_sorted_step db op h)

theorem countP_id_le_one (l : List DBRec) (rid : ℤ)
    (h : (l.map (fun r => r.id)).Pairwise (· < ·)) :
    l.countP (fun r => ((r.id : ℤ) == rid)) ≤ 1 := by
  induction l with
  | nil => simp
  | cons x xs ih =>
    simp only [List.map_cons, List.pairwise_cons] at h
    by_cases hx : ((x.id : ℤ) == rid) = true
    · have hxid : (x.id : ℤ) = rid := by simpa using hx
      have hz : xs.countP (fun r => ((r.id : ℤ) == rid)) = 0 := by
        rw [List.countP_eq_zero]
        intro r hr
        have hlt : x.id < r.id := h.1 r.id (List.mem_map.mpr ⟨r, hr, rfl⟩)
        simp only [beq_iff_eq]
        intro hcontr
        omega
      simp [List.countP_cons, hx, hz]
    · have hb : ((x.id : ℤ) == rid) = false := by
        simpa using hx
      simp only [List.countP_cons, hb]
      simpa using ih h.2

theorem filter_ne_id_length (l : List DBRec) (rid : ℤ) :
    (l.filter (fun r => !((r.id : ℤ) == rid))).length
      + l.countP (fun r => ((r.id : ℤ) == rid)) = l.length := by
  induction l with
  | nil => simp
  | cons x xs ih =>
    by_cases hx : ((x.id : ℤ) == rid) = true
    · simp only [List.filter_cons, List.countP_cons, hx, Bool.not_true]
      simp
      omega
    · have hb : ((x.id : ℤ) == rid) = false := by simpa using hx
      simp only [List.filter_cons, List.countP_cons, hb, Bool.not_false]
      simp
      omega

/-- C3: `deleteData(id)` answers `{success: true}` and appends exactly one
`LogEntry` exactly when a record with that id exists — in which case exactly
that one record is removed and every other record is kept; for a
non-existent id it answers `{success: false, error: "Record not found"}`
and appends no `LogEntry`.  The model is a total function, matching the
source's `try`/`except` that never lets an exception reach the caller. -/
theorem delete_data_contract (ops : List BOp) (rid : ℤ) :
    ((∃ r ∈ (run init_database ops).user_data, (r.id : ℤ) = rid) →
        (delete_data rid (run init_database ops)).1
            = .obj [("success", .bool true)] ∧
        (delete_data rid (run init_database ops)).2.logs.length
            = (run init_database ops).logs.length + 1 ∧
        (delete_data rid (run init_database ops)).2.user_data.length + 1
            = (run init_database ops).user_data.length ∧
        ∀ r ∈ (run init_database ops).user_data, (r.id : ℤ) ≠ rid →
          r ∈ (delete_data rid (run init_database ops)).2.user_data) ∧
    ((∀ r ∈ (run init_database ops).user_data, (r.id : ℤ) ≠ rid) →
        (delete_data rid (run init_database ops)).1
            = .obj [("success", .bool false), ("error", .str "Record not found")] ∧
        (delete_data rid (run init_database ops)).2.logs
            = (run init_database ops).logs ∧
        (delete_data rid (run init_database ops)).2.user_data
            = (run init_database ops).user_data) := by
  have hsorted := rec_ids_sorted_run ops init_database
    (by constructor <;> simp [init_database])
  constructor
  · rintro ⟨r, hr, hrid⟩
    have hpos : 0 < (run init_database ops).user_data.countP
        (fun r => ((r.id : ℤ) == rid)) :=
      List.countP_pos_iff.mpr ⟨r, hr, by simp [hrid]⟩
    have hone : (run init_database ops).user_data.countP
        (fun r => ((r.id : ℤ) == rid)) = 1 :=
      Nat.le_antisymm (countP_id_le_one _ rid hsorted.1) hpos
    have hd : delete_data rid (run init_database ops)
        = (.obj [("success", .bool true)],
           log_action "INFO" ("Data deleted: ID " ++ toString rid)
             { run init_database ops with
               user_data := (run init_database ops).user_data.filter
                 (fun r => !((r.id : ℤ) == rid)) }) := by
      simp only [delete_data]
      rw [if_pos hpos]
    refine ⟨by rw [hd], ?_, ?_, ?_⟩
    · rw [hd]
      simp [log_action]
    · rw [hd]
      have := filter_ne_id_length (run init_database ops).user_data rid
      simp only [log_action]
      omega
    · intro r' hr' hne
      rw [hd]
      simp only [log_action]
      exact List.mem_filter.mpr ⟨hr', by simp [hne]⟩
  · intro hall
    have hz : (run init_database ops).user_data.countP
        (fun r => ((r.id : ℤ) == rid)) = 0 := by
      rw [List.countP_eq_zero]
      intro r hr
      simpa using hall r hr
    have hnpos : ¬ 0 < (run init_database ops).user_data.countP
        (fun r => ((r.id : ℤ) == rid)) := by omega
    have hfid : (run init_database ops).user_data.filter
        (fun r => !((r.id : ℤ) == rid)) = (run init_database ops).user_data := by
      rw [List.filter_eq_self]
      intro r hr
      simpa using hall r hr
    have hd : delete_data rid (run init_database ops)
        = (.obj [("success", .bool false), ("error", .str "Record not found")],
           { run init_database ops with
             user_data := (run init_database ops).user_data.filter
               (fun r => !((r.id : ℤ) == rid)) }) := by
      simp only [delete_data]
      rw [if_neg hnpos]
    refine ⟨by rw [hd], by rw [hd], by rw [hd]; simp [hfid]⟩

/-- Witness for `delete_data_contract`: a save of `("a", "b")` issues id 1,
and deleting id 1 succeeds with exactly one new log row. -/
theorem delete_data_contract_witness :
    (delete_data 1 (run init_database [BOp.save "a" "b"])).1
        = .obj [("success", .bool true)] ∧
    (delete_data 1 (run init_database [BOp.save "a" "b"])).2.logs.length
        = (run init_database [BOp.save "a" "b"]).logs.length + 1 ∧
    (delete_data 1 (run init_database [BOp.save "a" "b"])).2.user_data.length + 1
        = (run init_database [BOp.save "a" "b"]).user_data.length ∧
    ∀ r ∈ (run init_database [BOp.save "a" "b"]).user_data, (r.id : ℤ) ≠ 1 →
      r ∈ (delete_data 1 (run init_database [BOp.save "a" "b"])).2.user_data :=
  (delete_data_contract [BOp.save "a" "b"] 1).1
    ⟨⟨1, "a", "b", 0⟩, by decide, by decide⟩

end PythonBridge

namespace PythonBridge

/-- C4: a successful `saveData(name, value)` answers `{success: true, id}`
with `id` one past the store's sequence, `getAllData` then contains the JSON
record with exactly that id, name and value, and the returned id is strictly
greater than every id returned by an earlier `saveData` in the store's
lifetime. -/
theorem save_then_get_all_contract (ops : List BOp) (name value : String) :
    (save_data name value (run init_database ops)).1
      = .obj [("success", .bool true),
              ("id", .num (((run init_database ops).user_seq + 1 : Nat) : ℚ))] ∧
    recToJson ⟨(run init_database ops).user_seq + 1, name, value,
               (run init_database ops).clock⟩
      ∈ (get_all_data (save_data name value (run init_database ops)).2).arrElems ∧
    ∀ i ∈ issuedRecIds init_database ops,
      i < (run init_database ops).user_seq + 1 := by
  refine ⟨rfl, ?_, ?_⟩
  · show recToJson _ ∈
      (sortTsDesc (save_data name value (run init_database ops)).2.user_data).map
        recToJson
    have hud : (save_data name value (run init_database ops)).2.user_data
        = (run init_database ops).user_data
          ++ [⟨(run init_database ops).user_seq + 1, name, value,
               (run init_database ops).clock⟩] := rfl
    rw [hud]
    refine List.mem_map.mpr ⟨_, ?_, rfl⟩
    refine (sortTsDesc_perm _).mem_iff.mpr ?_
    simp
  · intro i hi
    have h1 := issuedRecIds_le ops init_database i hi
    omega

/-- Witness for `save_then_get_all_contract` after one earlier save (which
issued id 1): the payload carries id 2 and `1 < 2`. -/
theorem save_then_get_all_contract_witness :
    (save_data "n" "v" (run init_database [BOp.save "x" "y"])).1
      = .obj [("success", .bool true),
              ("id", .num (((run init_database [BOp.save "x" "y"]).user_seq + 1 : Nat) : ℚ))] ∧
    1 < (run init_database [BOp.save "x" "y"]).user_seq + 1 := by
  have h := save_then_get_all_contract [BOp.save "x" "y"] "n" "v"
  exact ⟨h.1, h.2.2 1 (by decide)⟩

/-- C6: after the bulk clear, `getAllData` answers the empty JSON array, and
the next `saveData` is assigned an id one past the untouched sequence —
strictly greater than every id issued before the clear, never reset to 1. -/
theorem clear_then_save_contract (ops : List BOp) (name value : String) :
    get_all_data (clear_app_data (run init_database ops)) = .arr [] ∧
    (save_data name value (clear_app_data (run init_database ops))).1
      = .obj [("success", .bool true),
              ("id", .num (((run init_database ops).user_seq + 1 : Nat) : ℚ))] ∧
    ∀ i ∈ issuedRecIds init_database ops,
      i < (run init_database ops).user_seq + 1 := by
  refine ⟨rfl, rfl, ?_⟩
  intro i hi
  have h1 := issuedRecIds_le ops init_database i hi
  omega

/-- Witness for `clear_then_save_contract` after one earlier save. -/
theorem clear_then_save_contract_witness :
    get_all_data (clear_app_data (run init_database [BOp.save "x" "y"])) = .arr [] ∧
    1 < (run init_database [BOp.save "x" "y"]).user_seq + 1 := by
  have h := clear_then_save_contract [BOp.save "x" "y"] "n" "v"
  exact ⟨h.1, h.2.2 1 (by decide)⟩

end PythonBridge
